import Mathlib

/-!
Shallow embedding of the lexical-analysis subsystem of the zinc compiler
(src/compiler/src/cst/lexer): the character cursor (lexeme.rs), the
lexeme/token data model (lexeme.rs, token.rs) and the lookahead-buffered
lexer (mod.rs).  Source text is modelled as a list of Unicode characters;
the Rust byte indices (offsets into the UTF-8 encoding) are modelled with
explicit UTF-8 widths via Char.utf8Size.
-/

namespace Zinc

/-- Total UTF-8 byte length of a character list, as Rust str::len. -/
def utf8Len (s : List Char) : Nat :=
  (s.map Char.utf8Size).sum

/-- Drop the first b bytes of the UTF-8 encoding of s.  Models the left end
of a Rust byte-indexed slice; only invoked at character boundaries. -/
def utf8Drop : List Char → Nat → List Char
  | [], _ => []
  | s, 0 => s
  | c :: s, b + 1 => utf8Drop s (b + 1 - c.utf8Size)

/-- Take the first b bytes of the UTF-8 encoding of s.  Models the right end
of a Rust byte-indexed slice; only invoked at character boundaries. -/
def utf8Take : List Char → Nat → List Char
  | _, 0 => []
  | [], _ => []
  | c :: s, b + 1 => c :: utf8Take s (b + 1 - c.utf8Size)

/-- Rust slice text[start..start+len] with byte indices. -/
def utf8Slice (s : List Char) (start len : Nat) : List Char :=
  utf8Take (utf8Drop s start) len

/-- Rust char::is_whitespace: the Unicode White_Space property. -/
def is_whitespace (next : Char) : Bool :=
  let n := next.toNat
  (0x09 ≤ n && n ≤ 0x0D) || n == 0x20 || n == 0x85 || n == 0xA0 || n == 0x1680 ||
    (0x2000 ≤ n && n ≤ 0x200A) || n == 0x2028 || n == 0x2029 || n == 0x202F ||
    n == 0x205F || n == 0x3000

/-- mod.rs is_identifier_start: underscore or ASCII alphabetic
(char::is_ascii_alphabetic, the ranges A-Z and a-z). -/
def is_identifier_start (next : Char) : Bool :=
  next == '_' || (65 ≤ next.toNat && next.toNat ≤ 90) ||
    (97 ≤ next.toNat && next.toNat ≤ 122)

/-- mod.rs is_integer: ASCII digit (char::is_ascii_digit, the range 0-9). -/
def is_integer (next : Char) : Bool :=
  48 ≤ next.toNat && next.toNat ≤ 57

/-- mod.rs is_identifier_continue: identifier start or ASCII digit. -/
def is_identifier_continue (next : Char) : Bool :=
  is_identifier_start next || is_integer next

/-- token.rs KeywordKind. -/
inductive KeywordKind where
  | Module
  | Class
  | Field
  | Function
  | Constant
  | Mutable
deriving DecidableEq, Repr

/-- token.rs TryFrom for KeywordKind: parse a spelling. -/
def KeywordKind.try_from (value : List Char) : Option KeywordKind :=
  if value = ['m', 'o', 'd', 'u', 'l', 'e'] then some KeywordKind.Module
  else if value = ['c', 'l', 'a', 's', 's'] then some KeywordKind.Class
  else if value = ['l', 'e', 't'] then some KeywordKind.Field
  else if value = ['f', 'u', 'n', 'c', 't', 'i', 'o', 'n'] then some KeywordKind.Function
  else if value = ['c', 'o', 'n', 's', 't', 'a', 'n', 't'] then some KeywordKind.Constant
  else if value = ['m', 'u', 't', 'a', 'b', 'l', 'e'] then some KeywordKind.Mutable
  else none

/-- token.rs Display for KeywordKind: the literal spelling. -/
def KeywordKind.fmt : KeywordKind → List Char
  | KeywordKind.Module => ['m', 'o', 'd', 'u', 'l', 'e']
  | KeywordKind.Class => ['c', 'l', 'a', 's', 's']
  | KeywordKind.Field => ['l', 'e', 't']
  | KeywordKind.Function => ['f', 'u', 'n', 'c', 't', 'i', 'o', 'n']
  | KeywordKind.Constant => ['c', 'o', 'n', 's', 't', 'a', 'n', 't']
  | KeywordKind.Mutable => ['m', 'u', 't', 'a', 'b', 'l', 'e']

/-- token.rs TokenKind. -/
inductive TokenKind where
  | Whitespace
  | Identifier
  | Integer
  | Keyword (keyword : KeywordKind)
  | Comma
  | Semicolon
  | Colon
  | Equals
  | Minus
  | GreaterThan
  | RightArrow
  | PathSeparator
  | LeftBrace
  | RightBrace
  | LeftParentheses
  | RightParentheses
  | Unknown
deriving DecidableEq, Repr

/-- lexeme.rs Lexeme: start offset (in characters) and length (in characters)
of a span together with its text. -/
structure Lexeme where
  start_offset : Nat
  length : Nat
  text : List Char
deriving DecidableEq, Repr

/-- lexeme.rs Cursor.  The Chars iterator is modelled as the list of
characters not yet consumed. -/
structure Cursor where
  text : List Char
  rest : List Char
  char_offset : Nat
  char_length : Nat
  byte_offset : Nat
  byte_length : Nat
deriving DecidableEq, Repr

/-- lexeme.rs Cursor::new. -/
def Cursor.new (text : List Char) : Cursor :=
  { text := text, rest := text, char_offset := 0, char_length := 0,
    byte_offset := 0, byte_length := 0 }

/-- lexeme.rs Cursor::current: the open lexeme, with text sliced by byte
indices from the source. -/
def Cursor.current (c : Cursor) : Lexeme :=
  { start_offset := c.char_offset, length := c.char_length,
    text := utf8Slice c.text c.byte_offset c.byte_length }

/-- lexeme.rs Cursor::close: snapshot the open lexeme and reset accumulation
at the current position.  Mutation is modelled by returning the new cursor. -/
def Cursor.close (c : Cursor) : Lexeme × Cursor :=
  (c.current,
    { c with char_offset := c.char_offset + c.char_length, char_length := 0,
             byte_offset := c.byte_offset + c.byte_length, byte_length := 0 })

/-- lexeme.rs Cursor::consume: advance past one character, extending the open
lexeme by its UTF-8 width; at end of input return none with the cursor
unchanged. -/
def Cursor.consume (c : Cursor) : Option Char × Cursor :=
  match c.rest with
  | [] => (none, c)
  | next :: rest =>
    (some next,
      { c with rest := rest, char_length := c.char_length + 1,
               byte_length := c.byte_length + next.utf8Size })

/-- Loop body of lexeme.rs Cursor::consume_while, recursing structurally on
the list of unconsumed characters (always invoked with spine = c.rest). -/
def consumeWhileF (p : Char → Bool) : List Char → Cursor → Nat × Cursor
  | [], c => (0, c)
  | next :: rest, c =>
    if p next then
      let step := consumeWhileF p rest
        { c with rest := rest, char_length := c.char_length + 1,
                 byte_length := c.byte_length + next.utf8Size }
      (step.fst + 1, step.snd)
    else (0, c)

/-- lexeme.rs Cursor::consume_while: consume while the peeked character
satisfies the predicate, returning the number consumed. -/
def Cursor.consume_while (c : Cursor) (p : Char → Bool) : Nat × Cursor :=
  consumeWhileF p c.rest c

/-- lexeme.rs Cursor::peek_at_offset: iterator.clone().nth(offset). -/
def Cursor.peek_at_offset (c : Cursor) (offset : Nat) : Option Char :=
  c.rest.get? offset

/-- lexeme.rs Cursor::peek. -/
def Cursor.peek (c : Cursor) : Option Char :=
  c.peek_at_offset 0

/-- token.rs Token.  The struct has fields kind, start_offset and text only;
mod.rs also mentions a length field, which does not exist in token.rs, so the
character length of the producing lexeme is not stored. -/
structure Token where
  kind : TokenKind
  start_offset : Nat
  text : List Char
deriving DecidableEq, Repr

/-- token.rs Token::length: the byte length of the text. -/
def Token.length (t : Token) : Nat :=
  utf8Len t.text

/-- token.rs Token::end_offset: start_offset plus length. -/
def Token.end_offset (t : Token) : Nat :=
  t.start_offset + t.length

/-- token.rs TokenKind::decompose: the primitive constituents of a kind. -/
def TokenKind.decompose (self : TokenKind) : List TokenKind :=
  match self with
  | TokenKind.RightArrow => [TokenKind.Minus, TokenKind.GreaterThan]
  | TokenKind.PathSeparator => [TokenKind.Colon, TokenKind.Colon]
  | _ => [self]

/-- token.rs TokenKind::combine, the windows(2) contiguity check. -/
def is_consecutive : List Token → Bool
  | a :: b :: rest => (a.end_offset == b.start_offset) && is_consecutive (b :: rest)
  | _ => true

/-- token.rs TokenKind::combine: combine consecutive parts into a token of
this kind, slicing the text from the source over the combined byte span. -/
def TokenKind.combine (self : TokenKind) (text : List Char) (parts : List Token) :
    Option Token :=
  if is_consecutive parts ∧ self.decompose = parts.map Token.kind then
    match parts.head?, parts.getLast? with
    | some first, some last =>
      some { kind := self, start_offset := first.start_offset,
             text := utf8Slice text first.start_offset
               (last.end_offset - first.start_offset) }
    | _, _ => none
  else none

/-- mod.rs Lexer::whitespace. -/
def whitespace (c : Cursor) : TokenKind × Cursor :=
  (TokenKind.Whitespace, (c.consume_while is_whitespace).snd)

/-- mod.rs Lexer::identifier: greedily extend, then reclassify as a keyword
when the lexeme text parses as one. -/
def identifier (c : Cursor) : TokenKind × Cursor :=
  let c2 := (c.consume_while is_identifier_continue).snd
  match KeywordKind.try_from (c2.current).text with
  | some keyword => (TokenKind.Keyword keyword, c2)
  | none => (TokenKind.Identifier, c2)

/-- mod.rs Lexer::integer. -/
def integer (c : Cursor) : TokenKind × Cursor :=
  (TokenKind.Integer, (c.consume_while is_integer).snd)

/-- Single-character arms of the match in mod.rs Lexer::create. -/
def punctKind : Char → TokenKind
  | ',' => TokenKind.Comma
  | ';' => TokenKind.Semicolon
  | ':' => TokenKind.Colon
  | '=' => TokenKind.Equals
  | '-' => TokenKind.Minus
  | '>' => TokenKind.GreaterThan
  | '{' => TokenKind.LeftBrace
  | '}' => TokenKind.RightBrace
  | '(' => TokenKind.LeftParentheses
  | ')' => TokenKind.RightParentheses
  | _ => TokenKind.Unknown

/-- The dispatch of the match in mod.rs Lexer::create, checked in source
order: whitespace, identifier start, digit, punctuation table, Unknown. -/
def lexStep (next : Char) (c1 : Cursor) : TokenKind × Cursor :=
  if is_whitespace next then whitespace c1
  else if is_identifier_start next then identifier c1
  else if is_integer next then integer c1
  else (punctKind next, c1)

/-- mod.rs Lexer::create: seed the lexeme with one character, dispatch on its
class, close the lexeme and build the token.  Only the cursor is touched, so
it is stated on the cursor.  The Rust code also passes the closed lexeme
character length to the Token literal, but token.rs declares no such field. -/
def create (c : Cursor) : Option Token × Cursor :=
  match c.consume with
  | (none, c0) => (none, c0)
  | (some next, c1) =>
    let step := lexStep next c1
    let closed := step.snd.close
    (some { kind := step.fst, start_offset := closed.fst.start_offset,
            text := closed.fst.text }, closed.snd)

/-- mod.rs Lexer: a cursor plus the FIFO lookahead queue. -/
structure Lexer where
  cursor : Cursor
  queue : List Token
deriving DecidableEq, Repr

/-- mod.rs Lexer::new. -/
def Lexer.new (text : List Char) : Lexer :=
  { cursor := Cursor.new text, queue := [] }

/-- mod.rs Lexer::next: pop the queue, else create from the cursor. -/
def Lexer.next (l : Lexer) : Option Token × Lexer :=
  match l.queue with
  | t :: q => (some t, { cursor := l.cursor, queue := q })
  | [] =>
    match create l.cursor with
    | (some t, c2) => (some t, { cursor := c2, queue := [] })
    | (none, c2) => (none, { cursor := c2, queue := [] })

/-- Loop body of mod.rs Lexer::peek_at_offset, with fuel offset + 1 minus the
queue length: each iteration pushes one created token onto the queue. -/
def peekF : Nat → Lexer → Nat → Option Token × Lexer
  | 0, l, offset => (l.queue.get? offset, l)
  | fuel + 1, l, offset =>
    if l.queue.length ≤ offset then
      match create l.cursor with
      | (none, _) => (none, l)
      | (some t, c2) => peekF fuel { cursor := c2, queue := l.queue ++ [t] } offset
    else (l.queue.get? offset, l)

/-- mod.rs Lexer::peek_at_offset: fill the queue until it holds offset + 1
tokens or the input is exhausted, then return the token at the offset. -/
def Lexer.peek_at_offset (l : Lexer) (offset : Nat) : Option Token × Lexer :=
  peekF (offset + 1 - l.queue.length) l offset

/-- mod.rs Lexer::peek. -/
def Lexer.peek (l : Lexer) : Option Token × Lexer :=
  l.peek_at_offset 0

/-- Repeatedly create tokens from a cursor, with fuel; each successful create
consumes at least one character. -/
def tokensF : Nat → Cursor → List Token
  | 0, _ => []
  | fuel + 1, c =>
    match create c with
    | (none, _) => []
    | (some t, c2) => t :: tokensF fuel c2

/-- The full primitive token stream of a cursor: what repeatedly calling
Lexer::next yields from a fresh lexer over that cursor. -/
def tokens (c : Cursor) : List Token :=
  tokensF c.rest.length c

/-- Loop body of draining a lexer with Lexer::next, with fuel. -/
def drainF : Nat → Lexer → List Token
  | 0, _ => []
  | fuel + 1, l =>
    match l.next with
    | (none, _) => []
    | (some t, l2) => t :: drainF fuel l2

/-- Drain a lexer by repeatedly calling Lexer::next until it returns none. -/
def Lexer.drain (l : Lexer) : List Token :=
  drainF (l.queue.length + l.cursor.rest.length) l

/-- Modelled from the spec: Lexer::next_kind is left todo!() in
src/compiler/src/cst/lexer/mod.rs, so its body is taken from the spec.  It
determines the length k of decompose(kind), materializes the next k tokens
into the queue, checks contiguity and the exact kind sequence (the check of
TokenKind::combine), and on success removes exactly those k tokens from the
front of the queue and returns the combined token; on failure it returns
none and removes no token. -/
def Lexer.next_kind (l : Lexer) (kind : TokenKind) : Option Token × Lexer :=
  let k := kind.decompose.length
  let l1 := (l.peek_at_offset (k - 1)).snd
  match kind.combine l1.cursor.text (l1.queue.take k) with
  | some t => (some t, { cursor := l1.cursor, queue := l1.queue.drop k })
  | none => (none, l1)

/-! ### Byte-length and slicing lemmas -/

theorem utf8Len_nil : utf8Len [] = 0 := rfl

theorem utf8Len_cons (c : Char) (s : List Char) :
    utf8Len (c :: s) = c.utf8Size + utf8Len s := by
  simp [utf8Len]

theorem utf8Len_append (a b : List Char) :
    utf8Len (a ++ b) = utf8Len a + utf8Len b := by
  simp [utf8Len]

theorem utf8Drop_zero (s : List Char) : utf8Drop s 0 = s := by
  cases s <;> rfl

theorem utf8Drop_append (d t : List Char) : utf8Drop (d ++ t) (utf8Len d) = t := by
  induction d with
  | nil => simpa [utf8Len_nil] using utf8Drop_zero t
  | cons c d ih =>
    have hpos : 0 < c.utf8Size := Char.utf8Size_pos c
    obtain ⟨m, hm⟩ : ∃ m, c.utf8Size + utf8Len d = m + 1 :=
      ⟨c.utf8Size + utf8Len d - 1, by omega⟩
    have hsub : m + 1 - c.utf8Size = utf8Len d := by omega
    rw [List.cons_append, utf8Len_cons, hm]
    show utf8Drop (d ++ t) (m + 1 - c.utf8Size) = t
    rw [hsub, ih]

theorem utf8Take_zero (s : List Char) : utf8Take s 0 = [] := by
  cases s <;> rfl

theorem utf8Take_append (o r : List Char) : utf8Take (o ++ r) (utf8Len o) = o := by
  induction o with
  | nil => simp [utf8Len_nil, utf8Take_zero]
  | cons c o ih =>
    have hpos : 0 < c.utf8Size := Char.utf8Size_pos c
    obtain ⟨m, hm⟩ : ∃ m, c.utf8Size + utf8Len o = m + 1 :=
      ⟨c.utf8Size + utf8Len o - 1, by omega⟩
    have hsub : m + 1 - c.utf8Size = utf8Len o := by omega
    rw [List.cons_append, utf8Len_cons, hm]
    show c :: utf8Take (o ++ r) (m + 1 - c.utf8Size) = c :: o
    rw [hsub, ih]

theorem utf8Slice_spec (d o r : List Char) :
    utf8Slice (d ++ o ++ r) (utf8Len d) (utf8Len o) = o := by
  have h1 : utf8Drop (d ++ o ++ r) (utf8Len d) = o ++ r := by
    rw [List.append_assoc]
    exact utf8Drop_append d (o ++ r)
  rw [utf8Slice, h1, utf8Take_append]

/-! ### List helper lemmas -/

theorem length_dropWhile_le (p : Char → Bool) (l : List Char) :
    (l.dropWhile p).length ≤ l.length := by
  induction l with
  | nil => simp
  | cons x l ih =>
    by_cases h : p x
    · simp only [List.dropWhile_cons, h, if_true]
      exact Nat.le_trans ih (Nat.le_succ _)
    · simp [List.dropWhile_cons, h]

theorem head_dropWhile_false (p : Char → Bool) (l : List Char) (x : Char)
    (h : (l.dropWhile p).head? = some x) : p x = false := by
  induction l with
  | nil => simp at h
  | cons y l ih =>
    by_cases hy : p y
    · rw [List.dropWhile_cons, if_pos hy] at h
      exact ih h
    · rw [List.dropWhile_cons, if_neg hy] at h
      simp only [List.head?_cons, Option.some.injEq] at h
      subst h
      exact Bool.eq_false_iff.mpr hy

/-! ### Cursor state invariant -/

/-- The cursor over a source text splits it into the closed part, the open
lexeme and the unconsumed rest, with offsets counting characters and byte
offsets counting UTF-8 bytes. -/
def Cursor.IsState (c : Cursor) (done opn : List Char) : Prop :=
  c.text = done ++ opn ++ c.rest ∧
  c.char_offset = done.length ∧ c.char_length = opn.length ∧
  c.byte_offset = utf8Len done ∧ c.byte_length = utf8Len opn

theorem Cursor.new_isState (s : List Char) : (Cursor.new s).IsState [] [] := by
  simp [Cursor.new, Cursor.IsState, utf8Len_nil]

theorem Cursor.current_spec (c : Cursor) (d o : List Char) (h : c.IsState d o) :
    c.current = ⟨d.length, o.length, o⟩ := by
  obtain ⟨htext, hco, hcl, hbo, hbl⟩ := h
  simp only [Cursor.current, htext, hco, hcl, hbo, hbl, utf8Slice_spec]

theorem Cursor.close_spec (c : Cursor) (d o : List Char) (h : c.IsState d o) :
    (c.close).fst = ⟨d.length, o.length, o⟩ ∧
    ((c.close).snd).IsState (d ++ o) [] ∧
    ((c.close).snd).rest = c.rest ∧ ((c.close).snd).text = c.text := by
  have hcur := Cursor.current_spec c d o h
  obtain ⟨htext, hco, hcl, hbo, hbl⟩ := h
  refine ⟨hcur, ⟨?_, ?_, ?_, ?_, ?_⟩, rfl, rfl⟩
  · show c.text = (d ++ o) ++ [] ++ c.rest
    simpa [List.append_assoc] using htext
  · show c.char_offset + c.char_length = (d ++ o).length
    simp [hco, hcl]
  · show (0 : Nat) = ([] : List Char).length
    rfl
  · show c.byte_offset + c.byte_length = utf8Len (d ++ o)
    simp [hbo, hbl, utf8Len_append]
  · show (0 : Nat) = utf8Len []
    rfl

theorem Cursor.consume_spec (c : Cursor) (d o : List Char) (ch : Char) (r : List Char)
    (h : c.IsState d o) (hr : c.rest = ch :: r) :
    (c.consume).fst = some ch ∧ ((c.consume).snd).IsState d (o ++ [ch]) ∧
    ((c.consume).snd).rest = r ∧ ((c.consume).snd).text = c.text := by
  obtain ⟨htext, hco, hcl, hbo, hbl⟩ := h
  refine ⟨?_, ⟨?_, ?_, ?_, ?_, ?_⟩, ?_, ?_⟩ <;>
    simp [Cursor.consume, hr, htext, hco, hcl, hbo, hbl, utf8Len_append, utf8Len_cons,
      utf8Len_nil]

theorem consumeWhileF_spec (p : Char → Bool) (spine : List Char) :
    ∀ (c : Cursor) (d o : List Char), c.IsState d o → c.rest = spine →
      (consumeWhileF p spine c).fst = (spine.takeWhile p).length ∧
      ((consumeWhileF p spine c).snd).IsState d (o ++ spine.takeWhile p) ∧
      ((consumeWhileF p spine c).snd).rest = spine.dropWhile p ∧
      ((consumeWhileF p spine c).snd).text = c.text := by
  induction spine with
  | nil =>
    intro c d o h hr
    exact ⟨rfl, by simpa using h, hr, rfl⟩
  | cons next rest ih =>
    intro c d o h hr
    obtain ⟨htext, hco, hcl, hbo, hbl⟩ := h
    by_cases hp : p next = true
    · have h1 : Cursor.IsState
          { c with rest := rest, char_length := c.char_length + 1,
                   byte_length := c.byte_length + next.utf8Size } d (o ++ [next]) := by
        refine ⟨?_, ?_, ?_, ?_, ?_⟩
        · show c.text = d ++ (o ++ [next]) ++ rest
          rw [htext, hr]
          simp
        · exact hco
        · show c.char_length + 1 = (o ++ [next]).length
          simp [hcl]
        · exact hbo
        · show c.byte_length + next.utf8Size = utf8Len (o ++ [next])
          simp [hbl, utf8Len_append, utf8Len_cons, utf8Len_nil]
      obtain ⟨hn, hstate, hrest, htext2⟩ := ih _ d (o ++ [next]) h1 rfl
      simp only [consumeWhileF, hp, if_true]
      refine ⟨?_, ?_, ?_, ?_⟩
      · simp [hn, List.takeWhile_cons, hp]
      · simpa [List.takeWhile_cons, hp, List.append_assoc] using hstate
      · simpa [List.dropWhile_cons, hp] using hrest
      · exact htext2
    · have ht : List.takeWhile p (next :: rest) = [] := by
        simp [List.takeWhile_cons, hp]
      have hd : List.dropWhile p (next :: rest) = next :: rest := by
        simp [List.dropWhile_cons, hp]
      simp only [consumeWhileF, hp, if_false, Bool.false_eq_true, ht, hd]
      refine ⟨?_, ?_, ?_, ?_⟩
      · simp
      · rw [List.append_nil]
        exact ⟨htext, hco, hcl, hbo, hbl⟩
      · exact hr
      · trivial

theorem Cursor.consume_while_spec (c : Cursor) (p : Char → Bool) (d o : List Char)
    (h : c.IsState d o) :
    (c.consume_while p).fst = (c.rest.takeWhile p).length ∧
    ((c.consume_while p).snd).IsState d (o ++ c.rest.takeWhile p) ∧
    ((c.consume_while p).snd).rest = c.rest.dropWhile p ∧
    ((c.consume_while p).snd).text = c.text :=
  consumeWhileF_spec p c.rest c d o h rfl

theorem consumeWhileF_rest (p : Char → Bool) (spine : List Char) :
    ∀ c : Cursor, c.rest = spine →
      ((consumeWhileF p spine c).snd).rest = spine.dropWhile p := by
  induction spine with
  | nil => intro c hr; simpa [consumeWhileF] using hr
  | cons next rest ih =>
    intro c hr
    by_cases hp : p next = true
    · have h := ih
        { c with rest := rest, char_length := c.char_length + 1,
                 byte_length := c.byte_length + next.utf8Size } rfl
      simp only [consumeWhileF, hp, if_true, List.dropWhile_cons]
      exact h
    · simp [consumeWhileF, hp, List.dropWhile_cons, hr]

theorem Cursor.consume_while_rest (c : Cursor) (p : Char → Bool) :
    ((c.consume_while p).snd).rest = c.rest.dropWhile p :=
  consumeWhileF_rest p c.rest c rfl

/-! ### Lemmas about token creation -/

/-- Shorthand for the cursor state right after Cursor.consume has returned
the character next, leaving r unconsumed. -/
def consumed (c : Cursor) (next : Char) (r : List Char) : Cursor :=
  { c with rest := r, char_length := c.char_length + 1,
           byte_length := c.byte_length + next.utf8Size }

theorem close_rest (c : Cursor) : ((c.close).snd).rest = c.rest := rfl

theorem identifier_snd (c : Cursor) :
    (identifier c).snd = (c.consume_while is_identifier_continue).snd := by
  simp only [identifier]
  cases KeywordKind.try_from (((c.consume_while is_identifier_continue).snd).current).text <;>
    rfl

theorem identifier_fst (c : Cursor) :
    (identifier c).fst = TokenKind.Identifier ∨
    ∃ k, (identifier c).fst = TokenKind.Keyword k := by
  simp only [identifier]
  cases KeywordKind.try_from (((c.consume_while is_identifier_continue).snd).current).text with
  | none => left; rfl
  | some k => right; exact ⟨k, rfl⟩

theorem punctKind_ne_whitespace (next : Char) : punctKind next ≠ TokenKind.Whitespace := by
  intro h
  unfold punctKind at h
  split at h <;> exact TokenKind.noConfusion h

theorem lexStep_rest_le (next : Char) (c1 : Cursor) :
    ((lexStep next c1).snd).rest.length ≤ c1.rest.length := by
  unfold lexStep
  split_ifs with h1 h2 h3
  · show (((c1.consume_while is_whitespace)).snd).rest.length ≤ c1.rest.length
    rw [Cursor.consume_while_rest]
    exact length_dropWhile_le _ _
  · rw [identifier_snd, Cursor.consume_while_rest]
    exact length_dropWhile_le _ _
  · show (((c1.consume_while is_integer)).snd).rest.length ≤ c1.rest.length
    rw [Cursor.consume_while_rest]
    exact length_dropWhile_le _ _
  · exact Nat.le_refl _

theorem create_nil (c : Cursor) (h : c.rest = []) : create c = (none, c) := by
  simp [create, Cursor.consume, h]

theorem create_cons (c : Cursor) (next : Char) (r : List Char) (hr : c.rest = next :: r) :
    create c =
      (some { kind := (lexStep next (consumed c next r)).fst,
              start_offset := (((lexStep next (consumed c next r)).snd.close).fst).start_offset,
              text := (((lexStep next (consumed c next r)).snd.close).fst).text },
       ((lexStep next (consumed c next r)).snd.close).snd) := by
  simp [create, Cursor.consume, hr, consumed]

theorem create_rest_lt (c : Cursor) (t : Token) (c2 : Cursor)
    (h : create c = (some t, c2)) : c2.rest.length < c.rest.length := by
  rcases hr : c.rest with _ | ⟨next, r⟩
  · rw [create_nil c hr] at h
    exact absurd (congrArg Prod.fst h) (by simp)
  · rw [create_cons c next r hr] at h
    have hc2 : c2 = ((lexStep next (consumed c next r)).snd.close).snd :=
      (congrArg Prod.snd h).symm
    have h1 : c2.rest = ((lexStep next (consumed c next r)).snd).rest := by
      rw [hc2, close_rest]
    have h2 := lexStep_rest_le next (consumed c next r)
    have h4 : c2.rest.length ≤ r.length := by
      rw [h1]
      exact h2
    exact Nat.lt_succ_of_le h4

theorem takeWhile_false (r : List Char) : r.takeWhile (fun _ => false) = [] := by
  cases r <;> rfl

theorem dropWhile_false (r : List Char) : r.dropWhile (fun _ => false) = r := by
  cases r <;> rfl

theorem consume_while_false (c : Cursor) :
    c.consume_while (fun _ => false) = (0, c) := by
  show consumeWhileF (fun _ => false) c.rest c = (0, c)
  cases c.rest <;> rfl

/-- Common shape of one Lexer::create step once the dispatch has selected a
continuation predicate: the produced token is the seed character followed by
the greedily consumed continuation, and the cursor is left closed right
after it. -/
theorem create_step_spec (c : Cursor) (d : List Char) (next : Char) (r : List Char)
    (h : c.IsState d []) (hr : c.rest = next :: r)
    (K : TokenKind) (p : Char → Bool)
    (hstep : lexStep next (consumed c next r) =
      (K, ((consumed c next r).consume_while p).snd)) :
    create c = (some { kind := K, start_offset := d.length,
                       text := next :: r.takeWhile p },
                ((((consumed c next r).consume_while p).snd).close).snd) ∧
    (((((consumed c next r).consume_while p).snd).close).snd).IsState
      (d ++ (next :: r.takeWhile p)) [] ∧
    (((((consumed c next r).consume_while p).snd).close).snd).rest = r.dropWhile p ∧
    (((((consumed c next r).consume_while p).snd).close).snd).text = c.text := by
  obtain ⟨htext, hco, hcl, hbo, hbl⟩ := h
  have hc1 : (consumed c next r).IsState d [next] := by
    refine ⟨?_, ?_, ?_, ?_, ?_⟩
    · show c.text = d ++ [next] ++ r
      rw [htext, hr]
      simp
    · exact hco
    · show c.char_length + 1 = 1
      rw [hcl]
      rfl
    · exact hbo
    · show c.byte_length + next.utf8Size = utf8Len [next]
      rw [hbl]
      simp [utf8Len_cons, utf8Len_nil]
  have hcw := Cursor.consume_while_spec (consumed c next r) p d [next] hc1
  have hrest1 : (consumed c next r).rest = r := rfl
  rw [hrest1] at hcw
  obtain ⟨hn, hcwState, hcwRest, hcwText⟩ := hcw
  have hsingle : [next] ++ r.takeWhile p = next :: r.takeWhile p := rfl
  rw [hsingle] at hcwState
  have hclose := Cursor.close_spec _ d (next :: r.takeWhile p) hcwState
  obtain ⟨hclose1, hclose2, hclose3, hclose4⟩ := hclose
  refine ⟨?_, hclose2, ?_, ?_⟩
  · rw [create_cons c next r hr, hstep]
    simp only [hclose1]
  · rw [hclose3, hcwRest]
  · rw [hclose4, hcwText]
    rfl

/-- One Lexer::create step on a closed cursor in a valid state: the produced
token starts at the closed position, its text is a nonempty prefix of the
unconsumed input, the cursor ends closed and valid right after it, the token
kind is Whitespace exactly when the seed character is whitespace, and a
whitespace token swallows the maximal whitespace run. -/
theorem create_spec (c : Cursor) (d : List Char) (next : Char) (r : List Char)
    (h : c.IsState d []) (hr : c.rest = next :: r) :
    ∃ t c3, create c = (some t, c3) ∧
      t.start_offset = d.length ∧
      t.text ≠ [] ∧
      t.text ++ c3.rest = next :: r ∧
      c3.text = c.text ∧
      c3.IsState (d ++ t.text) [] ∧
      (t.kind = TokenKind.Whitespace ↔ is_whitespace next = true) ∧
      (is_whitespace next = true → c3.rest = r.dropWhile is_whitespace) := by
  by_cases hws : is_whitespace next = true
  · have hstep : lexStep next (consumed c next r) =
        (TokenKind.Whitespace, ((consumed c next r).consume_while is_whitespace).snd) := by
      simp [lexStep, hws, whitespace]
    obtain ⟨hcr, hstate, hrest, htext⟩ :=
      create_step_spec c d next r h hr TokenKind.Whitespace is_whitespace hstep
    refine ⟨_, _, hcr, rfl, by simp, ?_, htext, hstate, by simp [hws], fun _ => hrest⟩
    rw [hrest]
    show next :: (r.takeWhile is_whitespace ++ r.dropWhile is_whitespace) = next :: r
    rw [List.takeWhile_append_dropWhile]
  · by_cases hid : is_identifier_start next = true
    · have hstep : lexStep next (consumed c next r) =
          ((identifier (consumed c next r)).fst,
           ((consumed c next r).consume_while is_identifier_continue).snd) := by
        rw [← identifier_snd]
        simp [lexStep, hws, hid]
      obtain ⟨hcr, hstate, hrest, htext⟩ :=
        create_step_spec c d next r h hr (identifier (consumed c next r)).fst
          is_identifier_continue hstep
      have hkind : (identifier (consumed c next r)).fst ≠ TokenKind.Whitespace := by
        rcases identifier_fst (consumed c next r) with h1 | ⟨k, h1⟩ <;> rw [h1] <;> simp
      refine ⟨_, _, hcr, rfl, by simp, ?_, htext, hstate, by simp [hws, hkind],
        fun hcontra => absurd hcontra hws⟩
      rw [hrest]
      show next :: (r.takeWhile _ ++ r.dropWhile _) = next :: r
      rw [List.takeWhile_append_dropWhile]
    · by_cases hint : is_integer next = true
      · have hstep : lexStep next (consumed c next r) =
            (TokenKind.Integer, ((consumed c next r).consume_while is_integer).snd) := by
          simp [lexStep, hws, hid, hint, integer]
        obtain ⟨hcr, hstate, hrest, htext⟩ :=
          create_step_spec c d next r h hr TokenKind.Integer is_integer hstep
        refine ⟨_, _, hcr, rfl, by simp, ?_, htext, hstate, by simp [hws],
          fun hcontra => absurd hcontra hws⟩
        rw [hrest]
        show next :: (r.takeWhile _ ++ r.dropWhile _) = next :: r
        rw [List.takeWhile_append_dropWhile]
      · have hstep : lexStep next (consumed c next r) =
            (punctKind next, ((consumed c next r).consume_while (fun _ => false)).snd) := by
          rw [consume_while_false]
          simp [lexStep, hws, hid, hint]
        obtain ⟨hcr, hstate, hrest, htext⟩ :=
          create_step_spec c d next r h hr (punctKind next) (fun _ => false) hstep
        rw [takeWhile_false] at hcr hstate
        rw [dropWhile_false] at hrest
        refine ⟨_, _, hcr, rfl, by simp, ?_, htext, hstate,
          by simp [hws, punctKind_ne_whitespace next],
          fun hcontra => absurd hcontra hws⟩
        rw [hrest]
        rfl

/-! ### The token stream -/

theorem tokens_nil (c : Cursor) (h : c.rest = []) : tokens c = [] := by
  unfold tokens
  rw [h]
  rfl

theorem tokensF_stable (f : Nat) : ∀ c : Cursor, c.rest.length ≤ f →
    tokensF f c = tokens c := by
  induction f using Nat.strong_induction_on with
  | _ f ih =>
    intro c hle
    rcases f with _ | g
    · have h0 : c.rest = [] := List.length_eq_zero.mp (Nat.le_zero.mp hle)
      rw [tokens_nil c h0]
      rfl
    · rcases hcr : create c with ⟨ot, c2⟩
      rcases ot with _ | t
      · have l1 : tokensF (g + 1) c = [] := by simp [tokensF, hcr]
        have l2 : tokens c = [] := by
          unfold tokens
          rcases hl : c.rest.length with _ | m
          · rfl
          · simp [tokensF, hcr]
        rw [l1, l2]
      · have hlt := create_rest_lt c t c2 hcr
        have hne : c.rest ≠ [] := by
          intro hnil
          rw [create_nil c hnil] at hcr
          exact absurd (congrArg Prod.fst hcr) (by simp)
        rcases hl : c.rest.length with _ | m
        · exact absurd (List.length_eq_zero.mp hl) hne
        · have l1 : tokensF (g + 1) c = t :: tokensF g c2 := by simp [tokensF, hcr]
          have l2 : tokens c = t :: tokensF m c2 := by
            unfold tokens
            rw [hl]
            simp [tokensF, hcr]
          have hle2 : c2.rest.length ≤ g := by omega
          have hle3 : c2.rest.length ≤ m := by omega
          have hg : tokensF g c2 = tokens c2 := ih g (Nat.lt_succ_self g) c2 hle2
          have hm : tokensF m c2 = tokens c2 := by
            refine ih m ?_ c2 hle3
            omega
          rw [l1, l2, hg, hm]

theorem tokens_cons (c : Cursor) (t : Token) (c2 : Cursor)
    (h : create c = (some t, c2)) : tokens c = t :: tokens c2 := by
  have hne : c.rest ≠ [] := by
    intro hnil
    rw [create_nil c hnil] at h
    exact absurd (congrArg Prod.fst h) (by simp)
  rcases hl : c.rest.length with _ | m
  · exact absurd (List.length_eq_zero.mp hl) hne
  · have hlt := create_rest_lt c t c2 h
    have l2 : tokens c = t :: tokensF m c2 := by
      unfold tokens
      rw [hl]
      simp [tokensF, h]
    have hle3 : c2.rest.length ≤ m := by omega
    rw [l2, tokensF_stable m c2 hle3]

theorem create_none_rest (c : Cursor) (c2 : Cursor) (h : create c = (none, c2)) :
    c.rest = [] := by
  rcases hr : c.rest with _ | ⟨next, r⟩
  · rfl
  · rw [create_cons c next r hr] at h
    exact absurd (congrArg Prod.fst h) (by simp)

/-- Concatenating the texts of the token stream of a closed, valid cursor
reproduces exactly its unconsumed input. -/
theorem tokens_text_concat (n : Nat) : ∀ (c : Cursor) (d : List Char),
    c.rest.length ≤ n → c.IsState d [] →
    ((tokens c).map Token.text).flatten = c.rest := by
  induction n with
  | zero =>
    intro c d hle h
    have h0 : c.rest = [] := List.length_eq_zero.mp (Nat.le_zero.mp hle)
    rw [tokens_nil c h0, h0]
    rfl
  | succ n ih =>
    intro c d hle h
    rcases hr : c.rest with _ | ⟨next, r⟩
    · rw [tokens_nil c hr]
      rfl
    · obtain ⟨t, c3, hcr, hstart, htne, hconcat, htext3, hstate3, hkindiff, hwsdrop⟩ :=
        create_spec c d next r h hr
      rw [tokens_cons c t c3 hcr]
      have hlt := create_rest_lt c t c3 hcr
      rw [hr] at hlt hle
      have hlen : c3.rest.length ≤ n := by
        simp only [List.length_cons] at hlt hle
        omega
      have ihr := ih c3 (d ++ t.text) hlen hstate3
      rw [List.map_cons, List.flatten_cons, ihr, hconcat]

/-- A nonempty token stream of a closed, valid cursor starts with a
whitespace token exactly when the unconsumed input starts with a whitespace
character. -/
theorem tokens_head_ws (c : Cursor) (d : List Char) (h : c.IsState d [])
    (u : Token) (hh : (tokens c).head? = some u)
    (hu : u.kind = TokenKind.Whitespace) :
    ∃ ch r2, c.rest = ch :: r2 ∧ is_whitespace ch = true := by
  rcases hr : c.rest with _ | ⟨next, r⟩
  · rw [tokens_nil c hr] at hh
    exact absurd hh (by simp)
  · obtain ⟨t, c3, hcr, hstart, htne, hconcat, htext3, hstate3, hkindiff, hwsdrop⟩ :=
      create_spec c d next r h hr
    rw [tokens_cons c t c3 hcr] at hh
    simp only [List.head?_cons, Option.some.injEq] at hh
    subst hh
    exact ⟨next, r, rfl, hkindiff.mp hu⟩

/-- The token stream of a closed, valid cursor never has two consecutive
whitespace tokens. -/
theorem tokens_no_double_ws (n : Nat) : ∀ (c : Cursor) (d : List Char),
    c.rest.length ≤ n → c.IsState d [] →
    List.Chain'
      (fun a b => ¬(a.kind = TokenKind.Whitespace ∧ b.kind = TokenKind.Whitespace))
      (tokens c) := by
  induction n with
  | zero =>
    intro c d hle h
    have h0 : c.rest = [] := List.length_eq_zero.mp (Nat.le_zero.mp hle)
    rw [tokens_nil c h0]
    exact List.chain'_nil
  | succ n ih =>
    intro c d hle h
    rcases hr : c.rest with _ | ⟨next, r⟩
    · rw [tokens_nil c hr]
      exact List.chain'_nil
    · obtain ⟨t, c3, hcr, hstart, htne, hconcat, htext3, hstate3, hkindiff, hwsdrop⟩ :=
        create_spec c d next r h hr
      rw [tokens_cons c t c3 hcr]
      have hlt := create_rest_lt c t c3 hcr
      rw [hr] at hlt hle
      have hlen : c3.rest.length ≤ n := by
        simp only [List.length_cons] at hlt hle
        omega
      rw [List.chain'_cons']
      refine ⟨?_, ih c3 (d ++ t.text) hlen hstate3⟩
      intro u hu hcontra
      obtain ⟨htws, huws⟩ := hcontra
      obtain ⟨ch, r2, hr2, hch⟩ := tokens_head_ws c3 (d ++ t.text) hstate3 u hu huws
      have hdrop : c3.rest = r.dropWhile is_whitespace := hwsdrop (hkindiff.mp htws)
      rw [hdrop] at hr2
      have : is_whitespace ch = false := by
        apply head_dropWhile_false is_whitespace r ch
        rw [hr2]
        rfl
      rw [hch] at this
      exact Bool.noConfusion this

/-! ### Draining a lexer -/

theorem drainF_queue_nil (f : Nat) : ∀ c : Cursor, drainF f ⟨c, []⟩ = tokensF f c := by
  induction f with
  | zero => intro c; rfl
  | succ g ih =>
    intro c
    rcases hcr : create c with ⟨ot, c2⟩
    rcases ot with _ | t
    · simp [drainF, Lexer.next, tokensF, hcr]
    · simp [drainF, Lexer.next, tokensF, hcr, ih]

theorem drain_eq_aux (q : List Token) : ∀ c : Cursor,
    Lexer.drain ⟨c, q⟩ = q ++ tokens c := by
  induction q with
  | nil =>
    intro c
    show drainF (([] : List Token).length + c.rest.length) ⟨c, []⟩ = [] ++ tokens c
    rw [List.length_nil, Nat.zero_add, drainF_queue_nil]
    rfl
  | cons t q ih =>
    intro c
    show drainF ((t :: q).length + c.rest.length) ⟨c, t :: q⟩ = (t :: q) ++ tokens c
    have hlen : (t :: q).length + c.rest.length = (q.length + c.rest.length) + 1 := by
      simp [List.length_cons]
      omega
    rw [hlen]
    show (match Lexer.next ⟨c, t :: q⟩ with
      | (none, _) => []
      | (some u, l2) => u :: drainF (q.length + c.rest.length) l2) = (t :: q) ++ tokens c
    simp only [Lexer.next]
    show t :: drainF (q.length + c.rest.length) ⟨c, q⟩ = t :: (q ++ tokens c)
    rw [← ih c]
    rfl

theorem Lexer.drain_eq (l : Lexer) : l.drain = l.queue ++ tokens l.cursor := by
  cases l with
  | mk c q => exact drain_eq_aux q c

/-! ### Text preservation and the lookahead queue -/

theorem consumeWhileF_text (p : Char → Bool) (spine : List Char) :
    ∀ c : Cursor, ((consumeWhileF p spine c).snd).text = c.text := by
  induction spine with
  | nil => intro c; rfl
  | cons next rest ih =>
    intro c
    by_cases hp : p next = true
    · simp only [consumeWhileF, hp, if_true]
      rw [ih]
    · simp [consumeWhileF, hp]

theorem lexStep_text (next : Char) (c1 : Cursor) :
    ((lexStep next c1).snd).text = c1.text := by
  unfold lexStep
  split_ifs with h1 h2 h3
  · exact consumeWhileF_text is_whitespace c1.rest c1
  · rw [identifier_snd]
    exact consumeWhileF_text is_identifier_continue c1.rest c1
  · exact consumeWhileF_text is_integer c1.rest c1
  · rfl

theorem create_text (c : Cursor) (ot : Option Token) (c2 : Cursor)
    (h : create c = (ot, c2)) : c2.text = c.text := by
  rcases hr : c.rest with _ | ⟨next, r⟩
  · rw [create_nil c hr] at h
    have hc2 : c2 = c := (congrArg Prod.snd h).symm
    rw [hc2]
  · rw [create_cons c next r hr] at h
    have hc2 : c2 = ((lexStep next (consumed c next r)).snd.close).snd :=
      (congrArg Prod.snd h).symm
    rw [hc2]
    show ((lexStep next (consumed c next r)).snd).text = c.text
    rw [lexStep_text]
    rfl

/-- The peek loop returns exactly the token that draining would deliver at
the given offset, never changes the drained stream, never changes the source
text, and afterwards either holds more than offset tokens in the queue or
has exhausted the cursor. -/
theorem peekF_spec (f : Nat) : ∀ (l : Lexer) (offset : Nat),
    offset + 1 - l.queue.length ≤ f →
    (peekF f l offset).fst = (l.drain).get? offset ∧
    ((peekF f l offset).snd).drain = l.drain ∧
    ((peekF f l offset).snd).cursor.text = l.cursor.text ∧
    (offset < ((peekF f l offset).snd).queue.length ∨
      tokens (((peekF f l offset).snd).cursor) = []) := by
  induction f with
  | zero =>
    intro l offset hf
    have hlen : offset < l.queue.length := by omega
    refine ⟨?_, rfl, rfl, Or.inl hlen⟩
    show l.queue.get? offset = (l.drain).get? offset
    rw [Lexer.drain_eq, List.get?_append hlen]
  | succ g ih =>
    intro l offset hf
    by_cases hq : l.queue.length ≤ offset
    · rcases hcr : create l.cursor with ⟨ot, c2⟩
      rcases ot with _ | t
      · have hrest : l.cursor.rest = [] := create_none_rest l.cursor c2 hcr
        have htok : tokens l.cursor = [] := tokens_nil l.cursor hrest
        have hunf : peekF (g + 1) l offset = (none, l) := by
          simp [peekF, hq, hcr]
        rw [hunf]
        refine ⟨?_, rfl, rfl, Or.inr htok⟩
        rw [Lexer.drain_eq, htok, List.append_nil]
        exact (List.get?_eq_none.mpr hq).symm
      · have hunf : peekF (g + 1) l offset =
            peekF g ⟨c2, l.queue ++ [t]⟩ offset := by
          simp [peekF, hq, hcr]
        have hdrain : Lexer.drain ⟨c2, l.queue ++ [t]⟩ = l.drain := by
          rw [drain_eq_aux, Lexer.drain_eq, tokens_cons l.cursor t c2 hcr]
          simp
        have htext : c2.text = l.cursor.text := create_text l.cursor (some t) c2 hcr
        have hf2 : offset + 1 - (Lexer.mk c2 (l.queue ++ [t])).queue.length ≤ g := by
          show offset + 1 - (l.queue ++ [t]).length ≤ g
          rw [List.length_append, List.length_singleton]
          omega
        obtain ⟨h1, h2, h3, h4⟩ := ih ⟨c2, l.queue ++ [t]⟩ offset hf2
        rw [hunf]
        refine ⟨?_, ?_, ?_, h4⟩
        · rw [h1, hdrain]
        · rw [h2, hdrain]
        · rw [h3]
          exact htext
    · push_neg at hq
      have hunf : peekF (g + 1) l offset = (l.queue.get? offset, l) := by
        simp [peekF, Nat.not_le.mpr hq]
      rw [hunf]
      refine ⟨?_, rfl, rfl, Or.inl hq⟩
      rw [Lexer.drain_eq, List.get?_append hq]

theorem Lexer.peek_at_offset_spec (l : Lexer) (offset : Nat) :
    (l.peek_at_offset offset).fst = (l.drain).get? offset ∧
    ((l.peek_at_offset offset).snd).drain = l.drain ∧
    ((l.peek_at_offset offset).snd).cursor.text = l.cursor.text ∧
    (offset < ((l.peek_at_offset offset).snd).queue.length ∨
      tokens (((l.peek_at_offset offset).snd).cursor) = []) :=
  peekF_spec (offset + 1 - l.queue.length) l offset (Nat.le_refl _)

/-! ### Combination of primitive tokens -/

theorem decompose_ne_nil (kind : TokenKind) : kind.decompose ≠ [] := by
  cases kind <;> simp [TokenKind.decompose]

theorem is_consecutive_iff (parts : List Token) :
    is_consecutive parts = true ↔
      List.Chain' (fun a b => a.end_offset = b.start_offset) parts := by
  induction parts with
  | nil => simp [is_consecutive]
  | cons a parts ih =>
    cases parts with
    | nil => simp [is_consecutive]
    | cons b rest =>
      rw [is_consecutive, List.chain'_cons, Bool.and_eq_true, beq_iff_eq, ih]

theorem combine_some_iff (kind : TokenKind) (text : List Char) (parts : List Token) :
    (kind.combine text parts).isSome = true ↔
      (parts ≠ [] ∧ is_consecutive parts = true ∧
        parts.map Token.kind = kind.decompose) := by
  unfold TokenKind.combine
  by_cases hcond : is_consecutive parts = true ∧ kind.decompose = parts.map Token.kind
  · rw [if_pos hcond]
    cases parts with
    | nil =>
      exact absurd hcond.2.symm (by simpa using decompose_ne_nil kind)
    | cons a as =>
      have hlast : ((a :: as).getLast?).isSome = true :=
        List.getLast?_isSome.mpr (by simp)
      obtain ⟨lt, hlt⟩ := Option.isSome_iff_exists.mp hlast
      rw [List.head?_cons, hlt]
      simp only [Option.isSome_some, true_iff]
      exact ⟨by simp, hcond.1, hcond.2.symm⟩
  · rw [if_neg hcond]
    simp only [Option.isSome_none, Bool.false_eq_true, false_iff]
    intro hcontra
    exact hcond ⟨hcontra.2.1, hcontra.2.2.symm⟩

theorem combine_some_shape (kind : TokenKind) (text : List Char) (parts : List Token)
    (t : Token) (h : kind.combine text parts = some t) :
    ∃ f lt, parts.head? = some f ∧ parts.getLast? = some lt ∧
      t = { kind := kind, start_offset := f.start_offset,
            text := utf8Slice text f.start_offset
              (lt.end_offset - f.start_offset) } := by
  unfold TokenKind.combine at h
  split_ifs at h with hcond
  rcases hh : parts.head? with _ | f
  · rw [hh] at h
    rcases hlast : parts.getLast? with _ | lt <;> rw [hlast] at h <;> simp at h
  · rcases hlast : parts.getLast? with _ | lt
    · rw [hh, hlast] at h
      simp at h
    · rw [hh, hlast] at h
      simp only [Option.some.injEq] at h
      exact ⟨f, lt, rfl, rfl, h.symm⟩

theorem combine_some_len (kind : TokenKind) (text : List Char) (parts : List Token)
    (t : Token) (h : kind.combine text parts = some t) :
    parts.length = kind.decompose.length := by
  have hiff := (combine_some_iff kind text parts).mp (by rw [h]; rfl)
  rw [← hiff.2.2, List.length_map]

/-! ### Combination through the lexer -/

theorem queue_take_drain (l1 : Lexer) (k : Nat)
    (hcase : k - 1 < l1.queue.length ∨ tokens l1.cursor = []) :
    l1.queue.take k = (l1.drain).take k := by
  rw [Lexer.drain_eq]
  rcases hcase with hlt | htok
  · rw [List.take_append_of_le_length (by omega)]
  · rw [htok, List.append_nil]

/-- Lexer::next_kind returns exactly what TokenKind::combine returns on the
next decompose-length tokens of the stream; on failure the stream is
unchanged, on success exactly those tokens are removed from the front. -/
theorem next_kind_spec (l : Lexer) (kind : TokenKind) :
    (l.next_kind kind).fst =
      kind.combine l.cursor.text ((l.drain).take kind.decompose.length) ∧
    ((l.next_kind kind).fst = none → ((l.next_kind kind).snd).drain = l.drain) ∧
    (∀ t, (l.next_kind kind).fst = some t →
      ((l.next_kind kind).snd).drain = (l.drain).drop kind.decompose.length) := by
  obtain ⟨h1, h2, h3, h4⟩ := Lexer.peek_at_offset_spec l (kind.decompose.length - 1)
  have hqtake : ((l.peek_at_offset (kind.decompose.length - 1)).snd).queue.take
        kind.decompose.length = (l.drain).take kind.decompose.length := by
    rw [← h2]
    exact queue_take_drain _ _ h4
  simp only [Lexer.next_kind]
  rw [h3, hqtake]
  rcases hcomb : kind.combine l.cursor.text ((l.drain).take kind.decompose.length)
    with _ | t
  · refine ⟨rfl, fun _ => h2, fun t ht => ?_⟩
    exact Option.noConfusion ht
  · refine ⟨rfl, fun hcontra => Option.noConfusion hcontra, fun u hu => ?_⟩
    have hlen := combine_some_len kind l.cursor.text
      ((l.drain).take kind.decompose.length) t hcomb
    rw [List.length_take] at hlen
    have hkq : kind.decompose.length ≤
        ((l.peek_at_offset (kind.decompose.length - 1)).snd).queue.length := by
      have hq : (((l.peek_at_offset (kind.decompose.length - 1)).snd).queue.take
          kind.decompose.length).length = kind.decompose.length := by
        rw [hqtake, List.length_take]
        omega
      rw [List.length_take] at hq
      omega
    show Lexer.drain ⟨((l.peek_at_offset (kind.decompose.length - 1)).snd).cursor,
      ((l.peek_at_offset (kind.decompose.length - 1)).snd).queue.drop
        kind.decompose.length⟩ = (l.drain).drop kind.decompose.length
    rw [drain_eq_aux, ← h2, Lexer.drain_eq,
      List.drop_append_of_le_length hkq]

/-! ### The claims -/

/-- C1: for every input text, concatenating the text field of every token
emitted by repeatedly calling Lexer::next, in emission order, reproduces the
input text exactly. -/
theorem claim_c1_round_trip (s : List Char) :
    (((Lexer.new s).drain).map Token.text).flatten = s := by
  rw [Lexer.drain_eq]
  show ((([] : List Token) ++ tokens (Cursor.new s)).map Token.text).flatten = s
  rw [List.nil_append]
  exact tokens_text_concat s.length (Cursor.new s) [] (Nat.le_refl _)
    (Cursor.new_isState s)

/-- C2: the contiguity claim end_offset = next start_offset fails on the
code.  On the input with the section sign followed by the letter a, the
first token ends, per Token::end_offset, at 2 (start_offset 0 plus the
2-byte UTF-8 length of its text) while the second token starts at character
offset 1 as produced by the cursor: byte lengths are mixed with character
offsets. -/
theorem claim_c2_contiguity_fails :
    (Lexer.new ['§', 'a']).drain =
      [{ kind := TokenKind.Unknown, start_offset := 0, text := ['§'] },
       { kind := TokenKind.Identifier, start_offset := 1, text := ['a'] }] ∧
    Token.end_offset { kind := TokenKind.Unknown, start_offset := 0, text := ['§'] } = 2 ∧
    Token.start_offset { kind := TokenKind.Identifier, start_offset := 1, text := ['a'] } = 1 ∧
    Token.end_offset { kind := TokenKind.Unknown, start_offset := 0, text := ['§'] } ≠
      Token.start_offset { kind := TokenKind.Identifier, start_offset := 1, text := ['a'] } := by
  decide

/-- C3 counterexample: on the input minus, space, greater-than, next_kind of
RightArrow returns nothing, but the lexer state is not completely unchanged:
the two inspected tokens were materialized from the cursor into the
lookahead queue. -/
theorem claim_c3_counterexample :
    ((Lexer.new ['-', ' ', '>']).next_kind TokenKind.RightArrow).fst = none ∧
    ((Lexer.new ['-', ' ', '>']).next_kind TokenKind.RightArrow).snd.queue ≠
      (Lexer.new ['-', ' ', '>']).queue := by
  decide

/-- C3 amended: next_kind either removes exactly the decompose-length front
tokens of the remaining stream and returns the combined token, or returns
nothing and removes no token from the stream; the drained sequence is
unchanged on failure, although inspected tokens are buffered in the
lookahead queue.  In particular on the input minus, space, greater-than,
next_kind of RightArrow returns nothing and consumes no token. -/
theorem claim_c3_next_kind (l : Lexer) (kind : TokenKind) :
    (l.next_kind kind).fst =
      kind.combine l.cursor.text ((l.drain).take kind.decompose.length) ∧
    ((l.next_kind kind).fst = none → ((l.next_kind kind).snd).drain = l.drain) ∧
    (∀ t, (l.next_kind kind).fst = some t →
      ((l.next_kind kind).snd).drain = (l.drain).drop kind.decompose.length) :=
  next_kind_spec l kind

/-- C3 witness: the amended theorem applied on both a failing combination
(the spaced arrow input, where the stream is unchanged) and a successful one
(the tight arrow input, where both tokens are removed). -/
theorem claim_c3_witness :
    (((Lexer.new ['-', ' ', '>']).next_kind TokenKind.RightArrow).snd).drain =
      (Lexer.new ['-', ' ', '>']).drain ∧
    (((Lexer.new ['-', '>']).next_kind TokenKind.RightArrow).snd).drain =
      ((Lexer.new ['-', '>']).drain).drop
        (TokenKind.RightArrow.decompose.length) := by
  constructor
  · exact (claim_c3_next_kind (Lexer.new ['-', ' ', '>'])
      TokenKind.RightArrow).2.1 (by decide)
  · exact (claim_c3_next_kind (Lexer.new ['-', '>']) TokenKind.RightArrow).2.2
      { kind := TokenKind.RightArrow, start_offset := 0, text := ['-', '>'] }
      (by decide)

/-- C4: TokenKind::combine succeeds exactly when the parts are nonempty,
pairwise contiguous, and their kind sequence equals the decomposition of the
candidate kind; on success the token carries the candidate kind, starts at
the first part, and its text is sliced from the source over the byte span
from the first part start to the last part end. -/
theorem claim_c4_combine (kind : TokenKind) (text : List Char) (parts : List Token) :
    ((kind.combine text parts).isSome = true ↔
      (parts ≠ [] ∧
        List.Chain' (fun a b => a.end_offset = b.start_offset) parts ∧
        parts.map Token.kind = kind.decompose)) ∧
    (∀ t, kind.combine text parts = some t →
      ∃ f lt, parts.head? = some f ∧ parts.getLast? = some lt ∧
        t = { kind := kind, start_offset := f.start_offset,
              text := utf8Slice text f.start_offset
                (lt.end_offset - f.start_offset) }) := by
  constructor
  · rw [combine_some_iff, is_consecutive_iff]
  · exact combine_some_shape kind text parts

/-- C4 witness: combining a Minus and a GreaterThan token into a RightArrow
over the two-character arrow input. -/
theorem claim_c4_witness :
    ∃ f lt,
      List.head? ([{ kind := TokenKind.Minus, start_offset := 0, text := ['-'] },
        { kind := TokenKind.GreaterThan, start_offset := 1, text := ['>'] }] :
          List Token) = some f ∧
      List.getLast? ([{ kind := TokenKind.Minus, start_offset := 0, text := ['-'] },
        { kind := TokenKind.GreaterThan, start_offset := 1, text := ['>'] }] :
          List Token) = some lt ∧
      ({ kind := TokenKind.RightArrow, start_offset := 0, text := ['-', '>'] } :
          Token) =
        { kind := TokenKind.RightArrow, start_offset := f.start_offset,
          text := utf8Slice ['-', '>'] f.start_offset
            (lt.end_offset - f.start_offset) } :=
  (claim_c4_combine TokenKind.RightArrow ['-', '>']
      [{ kind := TokenKind.Minus, start_offset := 0, text := ['-'] },
       { kind := TokenKind.GreaterThan, start_offset := 1, text := ['>'] }]).2
    { kind := TokenKind.RightArrow, start_offset := 0, text := ['-', '>'] }
    (by decide)

/-- C5: peeking at any offset returns a copy of the corresponding upcoming
token of the stream without dequeuing anything, and never changes the
tokens that draining with Lexer::next eventually produces; as this holds for
every lexer state it covers any number of peeks before draining. -/
theorem claim_c5_peek_stability (l : Lexer) (n : Nat) :
    ((l.peek_at_offset n).snd).drain = l.drain ∧
    (l.peek_at_offset n).fst = (l.drain).get? n := by
  obtain ⟨h1, h2, h3, h4⟩ := Lexer.peek_at_offset_spec l n
  exact ⟨h2, h1⟩

/-- C6: Lexer::next pops the head of the lookahead queue when it is
nonempty, otherwise synthesizes the next primitive token directly; once the
queue is empty and the input is exhausted, next and peek return nothing with
the state unchanged, hence on every subsequent call as well, and the drained
stream ends with no sentinel token. -/
theorem claim_c6_next (l : Lexer) :
    (∀ t q, l.queue = t :: q → l.next = (some t, ⟨l.cursor, q⟩)) ∧
    (l.queue = [] →
      l.next = ((create l.cursor).fst, ⟨(create l.cursor).snd, []⟩)) ∧
    (l.queue = [] → l.cursor.rest = [] →
      l.next = (none, l) ∧ (∀ k, l.peek_at_offset k = (none, l)) ∧
      l.drain = []) := by
  refine ⟨?_, ?_, ?_⟩
  · intro t q hq
    simp [Lexer.next, hq]
  · intro hq
    rcases hcr : create l.cursor with ⟨ot, c2⟩
    rcases ot with _ | t <;> simp [Lexer.next, hq, hcr]
  · intro hq hrest
    have hcr := create_nil l.cursor hrest
    have hl : l = ⟨l.cursor, []⟩ := by
      cases l
      simp_all
    refine ⟨?_, ?_, ?_⟩
    · rw [hl]
      simp [Lexer.next, hcr]
    · intro k
      show peekF (k + 1 - l.queue.length) l k = (none, l)
      rw [hq]
      show peekF (k + 1 - 0) l k = (none, l)
      rw [Nat.sub_zero]
      simp [peekF, hq, hcr]
    · rw [Lexer.drain_eq, hq, tokens_nil l.cursor hrest]
      rfl

/-- C6 witness: the empty input is already exhausted, so next and peek
return nothing, idempotently, and draining yields no tokens. -/
theorem claim_c6_witness :
    (Lexer.new []).next = (none, Lexer.new []) ∧
    (Lexer.new []).peek_at_offset 5 = (none, Lexer.new []) ∧
    (Lexer.new []).drain = [] := by
  have h := (claim_c6_next (Lexer.new [])).2.2 rfl rfl
  exact ⟨h.1, h.2.1 5, h.2.2⟩

/-- C7: the input foo123 lexes as one single Identifier token, because ASCII
digits are identifier continuations while only an ASCII letter or an
underscore can start an identifier. -/
theorem claim_c7_identifier :
    (Lexer.new ['f', 'o', 'o', '1', '2', '3']).drain =
      [{ kind := TokenKind.Identifier, start_offset := 0,
         text := ['f', 'o', 'o', '1', '2', '3'] }] ∧
    (∀ ch : Char, is_integer ch = true →
      is_identifier_continue ch = true ∧ is_identifier_start ch = false) := by
  refine ⟨by decide, ?_⟩
  intro ch h
  have hn : 48 ≤ ch.toNat ∧ ch.toNat ≤ 57 := by
    simpa [is_integer, Bool.and_eq_true, decide_eq_true_iff] using h
  constructor
  · simp [is_identifier_continue, h]
  · have hne : (ch == '_') = false := by
      by_cases hc : ch = '_'
      · subst hc
        have h95 : ('_').toNat = 95 := rfl
        omega
      · simp [hc]
    simp only [is_identifier_start, hne, Bool.false_or, Bool.or_eq_false_iff,
      Bool.and_eq_false_iff, decide_eq_false_iff_not, Nat.not_le]
    omega

/-- C7 witness: the digit 7 continues but cannot start an identifier. -/
theorem claim_c7_witness :
    (Lexer.new ['f', 'o', 'o', '1', '2', '3']).drain =
      [{ kind := TokenKind.Identifier, start_offset := 0,
         text := ['f', 'o', 'o', '1', '2', '3'] }] ∧
    is_identifier_continue '7' = true ∧ is_identifier_start '7' = false :=
  ⟨(claim_c7_identifier).1, (claim_c7_identifier).2 '7' (by decide)⟩

/-- C8: the mapping between KeywordKind and its literal spelling is
bidirectional: spelling a keyword and parsing it back is the identity, and
any string that parses to a keyword is that keyword literal spelling. -/
theorem claim_c8_keywords :
    (∀ k : KeywordKind, KeywordKind.try_from k.fmt = some k) ∧
    (∀ (s : List Char) (k : KeywordKind),
      KeywordKind.try_from s = some k → k.fmt = s) := by
  constructor
  · intro k
    cases k <;> decide
  · intro s k h
    unfold KeywordKind.try_from at h
    split_ifs at h with h1 h2 h3 h4 h5 h6
    · injection h with h0
      subst h0
      rw [h1]
      rfl
    · injection h with h0
      subst h0
      rw [h2]
      rfl
    · injection h with h0
      subst h0
      rw [h3]
      rfl
    · injection h with h0
      subst h0
      rw [h4]
      rfl
    · injection h with h0
      subst h0
      rw [h5]
      rfl
    · injection h with h0
      subst h0
      rw [h6]
      rfl

/-- C8 witness: the Module round trip and the keyword spelled let parsing to
the Field keyword and spelling back. -/
theorem claim_c8_witness :
    KeywordKind.try_from (KeywordKind.fmt KeywordKind.Module) =
      some KeywordKind.Module ∧
    KeywordKind.fmt KeywordKind.Field = ['l', 'e', 't'] :=
  ⟨(claim_c8_keywords).1 KeywordKind.Module,
   (claim_c8_keywords).2 ['l', 'e', 't'] KeywordKind.Field (by decide)⟩

/-- C9: Cursor::consume at end of input returns nothing and leaves every
cursor field unchanged; when input remains it consumes exactly one
character, extending the open lexeme by one character and by that character
UTF-8 width in bytes, leaving text and both start offsets untouched. -/
theorem claim_c9_consume (c : Cursor) :
    (c.rest = [] → c.consume = (none, c)) ∧
    (∀ ch r, c.rest = ch :: r →
      c.consume = (some ch,
        { text := c.text, rest := r, char_offset := c.char_offset,
          char_length := c.char_length + 1, byte_offset := c.byte_offset,
          byte_length := c.byte_length + ch.utf8Size })) := by
  constructor
  · intro h
    simp [Cursor.consume, h]
  · intro ch r h
    simp [Cursor.consume, h]

/-- C9 witness: consuming at end of input leaves the cursor unchanged, and
consuming the single letter a advances by one character and one byte. -/
theorem claim_c9_witness :
    (Cursor.new []).consume = (none, Cursor.new []) ∧
    (Cursor.new ['a']).consume = (some 'a',
      { text := ['a'], rest := [], char_offset := 0, char_length := 0 + 1,
        byte_offset := 0, byte_length := 0 + Char.utf8Size 'a' }) :=
  ⟨(claim_c9_consume (Cursor.new [])).1 rfl,
   (claim_c9_consume (Cursor.new ['a'])).2 'a' [] rfl⟩

/-- C10: for every input text, the token stream never contains two
consecutive Whitespace tokens: whitespace runs are emitted as one maximal
Whitespace token. -/
theorem claim_c10_no_double_whitespace (s : List Char) :
    List.Chain'
      (fun a b => ¬(a.kind = TokenKind.Whitespace ∧ b.kind = TokenKind.Whitespace))
      ((Lexer.new s).drain) := by
  rw [Lexer.drain_eq]
  show List.Chain' _ (([] : List Token) ++ tokens (Cursor.new s))
  rw [List.nil_append]
  exact tokens_no_double_ws s.length (Cursor.new s) [] (Nat.le_refl _)
    (Cursor.new_isState s)

end Zinc
